import Mathlib

/-!
# Verification of the tracktable density-based clustering core and helpers

This file embeds, in Lean 4, the components of the tracktable repository that
the specification describes:

* the DBSCAN-style clustering core (neighborhood index + cluster labeler).
  The Python module `tracktable.analysis.dbscan` that implements
  `compute_cluster_labels` is not among the available source files (only its
  test `test_dbscan_clustering.py` is), so the core is modelled from the
  specification's algorithm description (sections 4.1, 4.2 and 7 of the spec);
* `cluster_points_around` from `test_dbscan_clustering.py` (translated from
  the source);
* `compute_trajectory_time_bounds` from
  `example_movie_rendering_with_highlight.py` (translated from the source);
* the `domain_classes` registry set up by `tracktable/domain/terrestrial.py`
  (translated from the source).

Real numbers are embedded as rationals (`ℚ`); Python floats are treated as
exact reals, timestamps as integers.
-/

namespace Tracktable

/-! ## Point states of the cluster labeler

Modelled from the spec: "PointState: per-point, one of `Unvisited`, `Visited`,
`Noise`, or `Member(cluster_id)`." -/

inductive PState where
  | unvisited : PState
  | visited : PState
  | noise : PState
  | member : ℕ → PState
deriving DecidableEq, Repr

def isUnvisited : PState → Bool
  | .unvisited => true
  | _ => false

/-- Number of points still in state `Unvisited`; the termination measure of
the expansion loop. -/
def unvisitedCount (st : List PState) : ℕ :=
  st.countP isUnvisited

/-! ## The box predicate and the neighborhood index

Modelled from the spec (section 4.1): "return all point indices q such that,
for every dimension i, |q[i] − p[i]| ≤ tolerance[i]" — an axis-aligned box
query. -/

/-- `withinBox tol p q` holds when every coordinate of `q` is within the
per-dimension tolerance of the corresponding coordinate of `p`. Mismatched
lengths make the predicate false. -/
def withinBox : List ℚ → List ℚ → List ℚ → Bool
  | [], [], [] => true
  | t :: ts, x :: restA, y :: restB =>
      (decide (y ≤ x + t) && decide (x ≤ y + t)) && withinBox ts restA restB
  | _, _, _ => false
termination_by structural tol => tol

/-- The per-dimension test of `withinBox` is the spec's absolute-difference
bound. -/
theorem box1_iff (t x y : ℚ) : (y ≤ x + t ∧ x ≤ y + t) ↔ |y - x| ≤ t := by
  rw [abs_le]
  constructor
  · intro ⟨h1, h2⟩
    constructor
    · linarith
    · linarith
  · intro ⟨h1, h2⟩
    constructor
    · linarith
    · linarith

/-- Modelled from the spec: the Neighborhood Index is built once over the
dataset and the tolerance vector and is read-only afterwards. -/
structure NbrIndex where
  dataset : List (List ℚ)
  tolerance : List ℚ

/-- Modelled from the spec: `query(point_index)` returns all and only the
point indices satisfying the box predicate against `dataset[point_index]`
(the point itself included). -/
def query (idx : NbrIndex) (p : ℕ) : List ℕ :=
  (List.range idx.dataset.length).filter
    (fun q => withinBox idx.tolerance (idx.dataset.getD p []) (idx.dataset.getD q []))

/-! ## Input validation

Modelled from the spec (section 7): "a single `InvalidInput` kind, with
causes — dimension mismatch across points, negative tolerance component,
non-positive MinNeighbors. All such errors are detected at index-construction
time."  Per section 7 the empty dataset is a *valid* degenerate input that
produces an empty label array. -/

inductive DBError where
  | invalidInput : DBError
deriving DecidableEq, Repr

/-- Modelled from the spec: `build(dataset, tolerance) -> Index` validates the
tolerance vector and the dimensional consistency of the points before any
clustering work begins. -/
def buildIndex (dataset : List (List ℚ)) (tolerance : List ℚ) :
    Except DBError NbrIndex :=
  if tolerance.all (fun t => decide (0 ≤ t))
      && dataset.all (fun p => p.length == tolerance.length) then
    .ok ⟨dataset, tolerance⟩
  else
    .error .invalidInput

/-! ## Counting lemmas used by the termination measure -/

theorem countP_set_eq_of_false {p : PState → Bool} (st : List PState) (c : ℕ)
    (s : PState) (hold : p (st.getD c .visited) = false) (hnew : p s = false) :
    (st.set c s).countP p = st.countP p := by
  induction st generalizing c with
  | nil => simp
  | cons x xs ih =>
    cases c with
    | zero =>
      simp only [List.getD_cons_zero] at hold
      simp [List.countP_cons, hold, hnew]
    | succ n =>
      simp only [List.getD_cons_succ] at hold
      simp [List.countP_cons, ih n hold]

theorem countP_set_lt_of_true {p : PState → Bool} (st : List PState) (c : ℕ)
    (s : PState) (hd : p .visited = false)
    (hold : p (st.getD c .visited) = true) (hnew : p s = false) :
    (st.set c s).countP p < st.countP p := by
  induction st generalizing c with
  | nil => simp only [List.getD_nil] at hold; rw [hold] at hd; cases hd
  | cons x xs ih =>
    cases c with
    | zero =>
      simp only [List.getD_cons_zero] at hold
      simp [List.countP_cons, hold, hnew]
    | succ n =>
      simp only [List.getD_cons_succ] at hold
      simpa [List.countP_cons] using ih n hold

theorem unvisitedCount_set_lt (st : List PState) (c : ℕ) (s : PState)
    (hold : st.getD c .visited = .unvisited) (hs : isUnvisited s = false) :
    unvisitedCount (st.set c s) < unvisitedCount st := by
  apply countP_set_lt_of_true st c s rfl _ hs
  rw [hold]; rfl

theorem unvisitedCount_set_eq (st : List PState) (c : ℕ) (s : PState)
    (hold : isUnvisited (st.getD c .visited) = false) (hs : isUnvisited s = false) :
    unvisitedCount (st.set c s) = unvisitedCount st :=
  countP_set_eq_of_false st c s hold hs

/-! ## The expansion loop

Modelled from the spec (section 4.2, step 6): pop a candidate `c` from the
queue; a `Noise` or `Unvisited` candidate is assigned `Member(cid)` (the
transient `Visited` marking of a popped `Unvisited` candidate is immediately
overwritten by the `Member` assignment); when the candidate is itself a core
point its neighbors, excluding those already `Member(cid)`, join the queue;
candidates already belonging to a cluster are skipped. -/

def expand (idx : NbrIndex) (minN cid : ℕ) (st : List PState)
    (queue : List ℕ) : List PState :=
  match queue with
  | [] => st
  | c :: rest =>
    match hc : st.getD c .visited with
    | .unvisited =>
      let st1 := st.set c (.member cid)
      let nb := query idx c
      if minN ≤ nb.length then
        expand idx minN cid st1
          (rest ++ nb.filter (fun q => decide (st1.getD q .visited ≠ .member cid)))
      else
        expand idx minN cid st1 rest
    | .noise => expand idx minN cid (st.set c (.member cid)) rest
    | .visited => expand idx minN cid st rest
    | .member _ => expand idx minN cid st rest
termination_by (unvisitedCount st, queue.length)
decreasing_by
  · apply Prod.Lex.left
    exact unvisitedCount_set_lt st c (.member cid) hc rfl
  · apply Prod.Lex.left
    exact unvisitedCount_set_lt st c (.member cid) hc rfl
  · rw [unvisitedCount_set_eq st c (.member cid) (by rw [hc]; rfl) rfl]
    exact Prod.Lex.right _ (Nat.lt_succ_self _)
  · exact Prod.Lex.right _ (Nat.lt_succ_self _)
  · exact Prod.Lex.right _ (Nat.lt_succ_self _)

/-! ## The main labeling pass

Modelled from the spec (section 4.2, steps 1-5 and 7): iterate the points in
dataset order, skipping any point no longer `Unvisited`; a point with fewer
than MinNeighbors box-neighbors becomes `Noise` (it may be upgraded later); a
core point receives the next cluster id (the transient `Visited` marking is
immediately overwritten) and its neighbors, excluding the point itself, seed
the expansion queue. -/

def processPoint (idx : NbrIndex) (minN : ℕ) (acc : List PState × ℕ)
    (p : ℕ) : List PState × ℕ :=
  let st := acc.1
  let nextId := acc.2
  if st.getD p .visited ≠ .unvisited then
    acc
  else
    let nb := query idx p
    if nb.length < minN then
      (st.set p .noise, nextId)
    else
      let st1 := st.set p (.member nextId)
      (expand idx minN nextId st1 (nb.filter (fun q => decide (q ≠ p))), nextId + 1)

/-- Run the labeler: all points start `Unvisited` with `next_cluster_id = 0`,
then every point is processed in dataset order. Returns the final state
array and the number of discovered clusters. -/
def dbscanStates (idx : NbrIndex) (minN : ℕ) : List PState × ℕ :=
  (List.range idx.dataset.length).foldl (processPoint idx minN)
    (List.replicate idx.dataset.length .unvisited, 0)

/-- Modelled from the spec (section 4.2, step 7): the label array is derived
from the final PointState values, `Member(id) → id`, `Noise → NOISE` (the
sentinel −1). The spec's invariant says no point ends `Unvisited` or
`Visited`; those states map to the distinct sentinel −2 so that a violation
of the invariant would be visible in the output. -/
def labelOf : PState → ℤ
  | .member id => (id : ℤ)
  | .noise => -1
  | .unvisited => -2
  | .visited => -2

/-- The NOISE sentinel. -/
def NOISE : ℤ := -1

/-- Modelled from the spec (sections 4.2, 6 and 7): validate MinNeighbors,
build the index (which validates tolerance and dimensions), run the labeler
and derive the label array. -/
def compute_cluster_labels (dataset : List (List ℚ)) (tolerance : List ℚ)
    (minNeighbors : ℤ) : Except DBError (List ℤ) :=
  if minNeighbors < 1 then
    .error .invalidInput
  else
    match buildIndex dataset tolerance with
    | .error e => .error e
    | .ok idx => .ok (((dbscanStates idx minNeighbors.toNat).1).map labelOf)

/-- The property making an input valid per the spec's error taxonomy:
no negative tolerance component, consistent dimensionality, positive
MinNeighbors. -/
def ValidInput (dataset : List (List ℚ)) (tolerance : List ℚ)
    (minNeighbors : ℤ) : Prop :=
  (∀ t ∈ tolerance, 0 ≤ t) ∧ (∀ p ∈ dataset, p.length = tolerance.length) ∧
    1 ≤ minNeighbors

instance (dataset : List (List ℚ)) (tolerance : List ℚ) (minNeighbors : ℤ) :
    Decidable (ValidInput dataset tolerance minNeighbors) := by
  unfold ValidInput; infer_instance

/-! ## Unfolding equations for the expansion loop -/

theorem expand_nil (idx : NbrIndex) (minN cid : ℕ) (st : List PState) :
    expand idx minN cid st [] = st := by
  rw [expand]

theorem expand_cons_member (idx : NbrIndex) (minN cid : ℕ) (st : List PState)
    (c : ℕ) (rest : List ℕ) (id : ℕ) (hc : st.getD c .visited = .member id) :
    expand idx minN cid st (c :: rest) = expand idx minN cid st rest := by
  rw [expand]
  split <;> simp_all

theorem expand_cons_visited (idx : NbrIndex) (minN cid : ℕ) (st : List PState)
    (c : ℕ) (rest : List ℕ) (hc : st.getD c .visited = .visited) :
    expand idx minN cid st (c :: rest) = expand idx minN cid st rest := by
  rw [expand]
  split <;> simp_all

theorem expand_cons_noise (idx : NbrIndex) (minN cid : ℕ) (st : List PState)
    (c : ℕ) (rest : List ℕ) (hc : st.getD c .visited = .noise) :
    expand idx minN cid st (c :: rest) =
      expand idx minN cid (st.set c (.member cid)) rest := by
  rw [expand]
  split <;> simp_all

theorem expand_cons_unvisited (idx : NbrIndex) (minN cid : ℕ) (st : List PState)
    (c : ℕ) (rest : List ℕ) (hc : st.getD c .visited = .unvisited) :
    expand idx minN cid st (c :: rest) =
      (if minN ≤ (query idx c).length then
        expand idx minN cid (st.set c (.member cid))
          (rest ++ (query idx c).filter
            (fun q => decide ((st.set c (.member cid)).getD q .visited ≠ .member cid)))
      else
        expand idx minN cid (st.set c (.member cid)) rest) := by
  rw [expand]
  split <;> simp_all

/-! ## Pointwise behavior of the expansion loop -/

theorem getD_set (st : List PState) (c i : ℕ) (s d : PState) :
    (st.set c s).getD i d = if c = i ∧ c < st.length then s else st.getD i d := by
  simp only [List.getD_eq_getElem?_getD, List.getElem?_set]
  by_cases h1 : c = i
  · subst h1
    by_cases h2 : c < st.length
    · simp [h2]
    · simp [h2, List.getElem?_eq_none (Nat.le_of_not_lt h2)]
  · simp [h1]

/-- The expansion loop changes an entry only by assigning it to the cluster
being grown. -/
theorem expand_getD (idx : NbrIndex) (minN cid : ℕ) (st : List PState)
    (queue : List ℕ) (i : ℕ) (d : PState) :
    (expand idx minN cid st queue).getD i d = st.getD i d ∨
      (expand idx minN cid st queue).getD i d = .member cid := by
  induction st, queue using expand.induct idx minN cid with
  | case1 st => rw [expand_nil]; left; rfl
  | case2 st c rest hc st1 nb hlen ih =>
    rw [expand_cons_unvisited idx minN cid st c rest hc, if_pos hlen]
    rcases ih with h | h
    · rw [h, getD_set]
      split
      · right; rfl
      · left; rfl
    · right; exact h
  | case3 st c rest hc st1 nb hlen ih =>
    rw [expand_cons_unvisited idx minN cid st c rest hc, if_neg hlen]
    rcases ih with h | h
    · rw [h, getD_set]
      split
      · right; rfl
      · left; rfl
    · right; exact h
  | case4 st c rest hc ih =>
    rw [expand_cons_noise idx minN cid st c rest hc]
    rcases ih with h | h
    · rw [h, getD_set]
      split
      · right; rfl
      · left; rfl
    · right; exact h
  | case5 st c rest hc ih =>
    rw [expand_cons_visited idx minN cid st c rest hc]
    exact ih
  | case6 st c rest id hc ih =>
    rw [expand_cons_member idx minN cid st c rest id hc]
    exact ih

/-- An entry already assigned to a cluster is never changed by the expansion
loop. -/
theorem expand_member_stable (idx : NbrIndex) (minN cid : ℕ) (st : List PState)
    (queue : List ℕ) (i : ℕ) (d : PState) (id : ℕ)
    (h : st.getD i d = .member id) :
    (expand idx minN cid st queue).getD i d = .member id := by
  induction st, queue using expand.induct idx minN cid with
  | case1 st => rwa [expand_nil]
  | case2 st c rest hc st1 nb hlen ih =>
    rw [expand_cons_unvisited idx minN cid st c rest hc, if_pos hlen]
    apply ih
    rw [getD_set]
    split
    · rename_i hci
      obtain ⟨hce, hcl⟩ := hci
      subst hce
      rw [List.getD_eq_getElem st .visited hcl] at hc
      rw [List.getD_eq_getElem st d hcl] at h
      rw [h] at hc
      cases hc
    · exact h
  | case3 st c rest hc st1 nb hlen ih =>
    rw [expand_cons_unvisited idx minN cid st c rest hc, if_neg hlen]
    apply ih
    rw [getD_set]
    split
    · rename_i hci
      obtain ⟨hce, hcl⟩ := hci
      subst hce
      rw [List.getD_eq_getElem st .visited hcl] at hc
      rw [List.getD_eq_getElem st d hcl] at h
      rw [h] at hc
      cases hc
    · exact h
  | case4 st c rest hc ih =>
    rw [expand_cons_noise idx minN cid st c rest hc]
    apply ih
    rw [getD_set]
    split
    · rename_i hci
      obtain ⟨hce, hcl⟩ := hci
      subst hce
      rw [List.getD_eq_getElem st .visited hcl] at hc
      rw [List.getD_eq_getElem st d hcl] at h
      rw [h] at hc
      cases hc
    · exact h
  | case5 st c rest hc ih =>
    rw [expand_cons_visited idx minN cid st c rest hc]
    exact ih h
  | case6 st c rest id' hc ih =>
    rw [expand_cons_member idx minN cid st c rest id' hc]
    exact ih h

/-- The expansion loop preserves the length of the state array. -/
theorem expand_length (idx : NbrIndex) (minN cid : ℕ) (st : List PState)
    (queue : List ℕ) :
    (expand idx minN cid st queue).length = st.length := by
  induction st, queue using expand.induct idx minN cid with
  | case1 st => rw [expand_nil]
  | case2 st c rest hc st1 nb hlen ih =>
    rw [expand_cons_unvisited idx minN cid st c rest hc, if_pos hlen] at *
    rw [ih, List.length_set]
  | case3 st c rest hc st1 nb hlen ih =>
    rw [expand_cons_unvisited idx minN cid st c rest hc, if_neg hlen] at *
    rw [ih, List.length_set]
  | case4 st c rest hc ih =>
    rw [expand_cons_noise idx minN cid st c rest hc] at *
    rw [ih, List.length_set]
  | case5 st c rest hc ih =>
    rw [expand_cons_visited idx minN cid st c rest hc]
    exact ih
  | case6 st c rest id hc ih =>
    rw [expand_cons_member idx minN cid st c rest id hc]
    exact ih

/-! ## Invariants of the main loop -/

/-- A point state is settled when it is one of the two terminal states of the
spec's state machine: `Noise` or `Member(id)`. -/
def Settled : PState → Prop
  | .noise => True
  | .member _ => True
  | .unvisited => False
  | .visited => False

/-- The loop invariant of the labeling pass: the state array keeps its
length, no entry is `Visited` between iterations, every assigned cluster id
is below the id counter, and every id below the counter is assigned to some
point. -/
structure LoopInv (N : ℕ) (acc : List PState × ℕ) : Prop where
  len : acc.1.length = N
  noVis : ∀ i, acc.1.getD i .unvisited ≠ .visited
  bound : ∀ i id, acc.1.getD i .unvisited = .member id → id < acc.2
  witness : ∀ id, id < acc.2 → ∃ i, acc.1.getD i .unvisited = .member id

theorem expand_noVis (idx : NbrIndex) (minN cid : ℕ) (st : List PState)
    (queue : List ℕ) (h : ∀ i, st.getD i .unvisited ≠ .visited) (i : ℕ) :
    (expand idx minN cid st queue).getD i .unvisited ≠ .visited := by
  rcases expand_getD idx minN cid st queue i .unvisited with he | he
  · rw [he]; exact h i
  · rw [he]; intro hcon; cases hcon

theorem expand_settled (idx : NbrIndex) (minN cid : ℕ) (st : List PState)
    (queue : List ℕ) (i : ℕ) (h : Settled (st.getD i .unvisited)) :
    Settled ((expand idx minN cid st queue).getD i .unvisited) := by
  rcases expand_getD idx minN cid st queue i .unvisited with he | he
  · rw [he]; exact h
  · rw [he]; trivial

theorem processPoint_length (idx : NbrIndex) (minN : ℕ)
    (acc : List PState × ℕ) (p : ℕ) :
    (processPoint idx minN acc p).1.length = acc.1.length := by
  unfold processPoint
  dsimp only
  split
  · rfl
  · split
    · exact List.length_set acc.1 p .noise
    · rw [expand_length, List.length_set]

theorem processPoint_settled_preserved (idx : NbrIndex) (minN : ℕ)
    (acc : List PState × ℕ) (p i : ℕ)
    (h : Settled (acc.1.getD i .unvisited)) :
    Settled ((processPoint idx minN acc p).1.getD i .unvisited) := by
  unfold processPoint
  dsimp only
  split
  · exact h
  · split
    · rw [getD_set]
      split
      · trivial
      · exact h
    · apply expand_settled
      rw [getD_set]
      split
      · trivial
      · exact h

theorem processPoint_settles (idx : NbrIndex) (minN : ℕ)
    (acc : List PState × ℕ) (p : ℕ) (hp : p < acc.1.length)
    (hnv : ∀ i, acc.1.getD i .unvisited ≠ .visited) :
    Settled ((processPoint idx minN acc p).1.getD p .unvisited) := by
  unfold processPoint
  dsimp only
  split
  · rename_i hskip
    rw [List.getD_eq_getElem acc.1 .visited hp] at hskip
    have hnvp := hnv p
    rw [List.getD_eq_getElem acc.1 .unvisited hp] at *
    match hm : acc.1[p] with
    | .unvisited => rw [hm] at hskip; exact absurd rfl hskip
    | .visited => rw [hm] at hnvp; exact absurd rfl hnvp
    | .noise => trivial
    | .member id => trivial
  · split
    · rw [getD_set]
      split
      · trivial
      · rename_i hcon
        exact absurd ⟨rfl, hp⟩ hcon
    · apply expand_settled
      rw [getD_set]
      split
      · trivial
      · rename_i hcon
        exact absurd ⟨rfl, hp⟩ hcon

theorem processPoint_inv (idx : NbrIndex) (minN : ℕ) (N : ℕ)
    (acc : List PState × ℕ) (p : ℕ) (h : LoopInv N acc) :
    LoopInv N (processPoint idx minN acc p) := by
  obtain ⟨hlen, hnv, hbound, hwit⟩ := h
  by_cases hp : p < acc.1.length
  case neg =>
    -- out-of-range index: `set` is the identity, so the state is unchanged
    -- except possibly through the expansion loop
    unfold processPoint
    dsimp only
    split
    · exact ⟨hlen, hnv, hbound, hwit⟩
    · rename_i hunv
      push_neg at hunv
      rw [List.getD_eq_getElem?_getD,
        List.getElem?_eq_none (Nat.le_of_not_lt hp)] at hunv
      cases hunv
  case pos =>
    unfold processPoint
    dsimp only
    split
    · exact ⟨hlen, hnv, hbound, hwit⟩
    · rename_i hunv
      push_neg at hunv
      split
      · -- noise branch
        refine ⟨?_, ?_, ?_, ?_⟩
        · rw [List.length_set]; exact hlen
        · intro i
          rw [getD_set]
          split
          · intro hcon; cases hcon
          · exact hnv i
        · intro i id
          rw [getD_set]
          split
          · intro hcon; cases hcon
          · exact hbound i id
        · intro id hid
          obtain ⟨i, hi⟩ := hwit id hid
          refine ⟨i, ?_⟩
          rw [getD_set]
          split
          · rename_i hpi
            obtain ⟨hpe, _⟩ := hpi
            subst hpe
            rw [List.getD_eq_getElem acc.1 .unvisited hp] at hi
            rw [List.getD_eq_getElem acc.1 .visited hp] at hunv
            rw [hi] at hunv
            cases hunv
          · exact hi
      · -- core-point branch
        refine ⟨?_, ?_, ?_, ?_⟩
        · rw [expand_length, List.length_set]; exact hlen
        · intro i
          apply expand_noVis
          intro j
          rw [getD_set]
          split
          · intro hcon; cases hcon
          · exact hnv j
        · intro i id hi
          rcases expand_getD idx minN acc.2 (acc.1.set p (.member acc.2))
              ((query idx p).filter (fun q => decide (q ≠ p))) i .unvisited with he | he
          · rw [he, getD_set] at hi
            revert hi
            split
            · intro hi
              cases hi
              exact Nat.lt_succ_self _
            · intro hi
              exact Nat.lt_succ_of_lt (hbound i id hi)
          · rw [he] at hi
            cases hi
            exact Nat.lt_succ_self _
        · intro id hid
          rcases Nat.lt_succ_iff_lt_or_eq.mp hid with hlt | heq
          · obtain ⟨i, hi⟩ := hwit id hlt
            refine ⟨i, ?_⟩
            apply expand_member_stable
            rw [getD_set]
            split
            · rename_i hpi
              obtain ⟨hpe, _⟩ := hpi
              subst hpe
              rw [List.getD_eq_getElem acc.1 .unvisited hp] at hi
              rw [List.getD_eq_getElem acc.1 .visited hp] at hunv
              rw [hi] at hunv
              cases hunv
            · exact hi
          · subst heq
            refine ⟨p, ?_⟩
            apply expand_member_stable
            rw [getD_set]
            rw [if_pos ⟨rfl, hp⟩]

/-! ## The fold over the dataset -/

theorem foldl_inv (idx : NbrIndex) (minN N : ℕ) (ps : List ℕ)
    (acc : List PState × ℕ) (h : LoopInv N acc) :
    LoopInv N (ps.foldl (processPoint idx minN) acc) := by
  induction ps generalizing acc with
  | nil => exact h
  | cons p rest ih => exact ih _ (processPoint_inv idx minN N acc p h)

theorem foldl_settled_preserved (idx : NbrIndex) (minN : ℕ) (ps : List ℕ)
    (acc : List PState × ℕ) (i : ℕ) (h : Settled (acc.1.getD i .unvisited)) :
    Settled ((ps.foldl (processPoint idx minN) acc).1.getD i .unvisited) := by
  induction ps generalizing acc with
  | nil => exact h
  | cons p rest ih =>
    exact ih _ (processPoint_settled_preserved idx minN acc p i h)

theorem foldl_settles (idx : NbrIndex) (minN N : ℕ) (ps : List ℕ) :
    ∀ acc : List PState × ℕ, LoopInv N acc → (∀ p ∈ ps, p < N) →
      ∀ q ∈ ps,
        Settled ((ps.foldl (processPoint idx minN) acc).1.getD q .unvisited) := by
  induction ps with
  | nil =>
    intro acc _ _ q hq
    cases hq
  | cons p rest ih =>
    intro acc h hps q hq
    simp only [List.foldl_cons]
    rcases List.mem_cons.mp hq with he | hm
    · subst he
      apply foldl_settled_preserved
      apply processPoint_settles
      · rw [h.len]; exact hps q (List.mem_cons_self q rest)
      · exact h.noVis
    · exact ih _ (processPoint_inv idx minN N acc p h)
        (fun r hr => hps r (List.mem_cons_of_mem p hr)) q hm

theorem getD_replicate_unvisited (N i : ℕ) (d : PState) :
    (List.replicate N PState.unvisited).getD i d =
      if i < N then .unvisited else d := by
  rw [List.getD_eq_getElem?_getD]
  by_cases h : i < N
  · simp [List.getElem?_replicate, h]
  · simp [List.getElem?_replicate, h]

theorem initialState_inv (idx : NbrIndex) :
    LoopInv idx.dataset.length
      (List.replicate idx.dataset.length PState.unvisited, 0) := by
  refine ⟨List.length_replicate _ _, ?_, ?_, ?_⟩
  · intro i
    rw [getD_replicate_unvisited]
    split
    · intro hcon; cases hcon
    · intro hcon; cases hcon
  · intro i id
    rw [getD_replicate_unvisited]
    split
    · intro hcon; cases hcon
    · intro hcon; cases hcon
  · intro id hid
    cases hid

theorem dbscanStates_inv (idx : NbrIndex) (minN : ℕ) :
    LoopInv idx.dataset.length (dbscanStates idx minN) :=
  foldl_inv idx minN idx.dataset.length _ _ (initialState_inv idx)

theorem dbscanStates_settled (idx : NbrIndex) (minN : ℕ) (i : ℕ)
    (hi : i < idx.dataset.length) :
    Settled ((dbscanStates idx minN).1.getD i .unvisited) := by
  apply foldl_settles idx minN idx.dataset.length _ _ (initialState_inv idx)
  · intro p hp
    exact List.mem_range.mp hp
  · exact List.mem_range.mpr hi

theorem dbscanStates_length (idx : NbrIndex) (minN : ℕ) :
    (dbscanStates idx minN).1.length = idx.dataset.length :=
  (dbscanStates_inv idx minN).len

/-! ## Behavior of `compute_cluster_labels` on valid input -/

theorem compute_cluster_labels_valid (dataset : List (List ℚ))
    (tolerance : List ℚ) (minNeighbors : ℤ)
    (h : ValidInput dataset tolerance minNeighbors) :
    buildIndex dataset tolerance = .ok ⟨dataset, tolerance⟩ ∧
      compute_cluster_labels dataset tolerance minNeighbors =
        .ok (((dbscanStates ⟨dataset, tolerance⟩ minNeighbors.toNat).1).map labelOf) := by
  obtain ⟨htol, hdim, hm⟩ := h
  have hb : (tolerance.all (fun t => decide (0 ≤ t))
      && dataset.all (fun p => p.length == tolerance.length)) = true := by
    simp only [Bool.and_eq_true, List.all_eq_true]
    constructor
    · intro t ht
      simpa using htol t ht
    · intro p hp
      simpa using hdim p hp
  have hnm : ¬(minNeighbors < 1) := by omega
  constructor
  · unfold buildIndex
    rw [hb]
    simp
  · unfold compute_cluster_labels buildIndex
    rw [if_neg hnm, hb]
    simp

theorem compute_cluster_labels_invalid (dataset : List (List ℚ))
    (tolerance : List ℚ) (minNeighbors : ℤ)
    (h : ¬ ValidInput dataset tolerance minNeighbors) :
    compute_cluster_labels dataset tolerance minNeighbors =
      .error .invalidInput := by
  unfold compute_cluster_labels
  by_cases hm : minNeighbors < 1
  · rw [if_pos hm]
  · rw [if_neg hm]
    have h3 : ¬((∀ t ∈ tolerance, 0 ≤ t) ∧
        (∀ p ∈ dataset, p.length = tolerance.length)) := by
      intro ⟨h1, h2⟩
      exact h ⟨h1, h2, by omega⟩
    have hb : (tolerance.all (fun t => decide (0 ≤ t))
        && dataset.all (fun p => p.length == tolerance.length)) = false := by
      by_contra hcon
      rw [Bool.not_eq_false, Bool.and_eq_true,
        List.all_eq_true, List.all_eq_true] at hcon
      obtain ⟨h1, h2⟩ := hcon
      apply h3
      constructor
      · intro t ht
        simpa using h1 t ht
      · intro p hp
        simpa using h2 p hp
    unfold buildIndex
    rw [hb]
    simp

theorem buildIndex_cond_iff (dataset : List (List ℚ)) (tolerance : List ℚ) :
    (tolerance.all (fun t => decide (0 ≤ t))
        && dataset.all (fun p => p.length == tolerance.length)) = true ↔
      ((∀ t ∈ tolerance, 0 ≤ t) ∧ (∀ p ∈ dataset, p.length = tolerance.length)) := by
  rw [Bool.and_eq_true, List.all_eq_true, List.all_eq_true]
  constructor
  · intro ⟨h1, h2⟩
    constructor
    · intro t ht
      simpa using h1 t ht
    · intro p hp
      simpa using h2 p hp
  · intro ⟨h1, h2⟩
    constructor
    · intro t ht
      simpa using h1 t ht
    · intro p hp
      simpa using h2 p hp

theorem buildIndex_error_iff (dataset : List (List ℚ)) (tolerance : List ℚ) :
    buildIndex dataset tolerance = .error .invalidInput ↔
      ¬((∀ t ∈ tolerance, 0 ≤ t) ∧
        (∀ p ∈ dataset, p.length = tolerance.length)) := by
  unfold buildIndex
  by_cases hb : (tolerance.all (fun t => decide (0 ≤ t))
      && dataset.all (fun p => p.length == tolerance.length)) = true
  · rw [if_pos hb]
    constructor
    · intro hcon
      cases hcon
    · intro hcon
      exact absurd ((buildIndex_cond_iff dataset tolerance).mp hb) hcon
  · rw [if_neg hb]
    constructor
    · intro _ hP
      exact hb ((buildIndex_cond_iff dataset tolerance).mpr hP)
    · intro _
      rfl

/-! ## Claim C1 -/

/-- C1: for every input whose points have consistent dimensionality matching
the tolerance vector and whose MinNeighbors is at least 1,
`compute_cluster_labels` returns a label array of length exactly N in which
every entry is either a non-negative cluster id or the NOISE sentinel −1; no
entry is left without a final label. -/
theorem C1_labels_complete (dataset : List (List ℚ)) (tolerance : List ℚ)
    (minNeighbors : ℤ) (h : ValidInput dataset tolerance minNeighbors) :
    ∃ labels,
      compute_cluster_labels dataset tolerance minNeighbors = .ok labels ∧
        labels.length = dataset.length ∧
        ∀ x ∈ labels, 0 ≤ x ∨ x = NOISE := by
  obtain ⟨hbuild, hcomp⟩ := compute_cluster_labels_valid dataset tolerance minNeighbors h
  refine ⟨_, hcomp, ?_, ?_⟩
  · rw [List.length_map, dbscanStates_length]
  · intro x hx
    obtain ⟨s, hs, hlab⟩ := List.mem_map.mp hx
    obtain ⟨n, hn, hsn⟩ := List.getElem_of_mem hs
    have hset := dbscanStates_settled ⟨dataset, tolerance⟩ minNeighbors.toNat n
      (by rw [← dbscanStates_length ⟨dataset, tolerance⟩ minNeighbors.toNat]; exact hn)
    rw [List.getD_eq_getElem _ _ hn, hsn] at hset
    subst hlab
    match s with
    | .noise => right; rfl
    | .member id => left; exact Int.natCast_nonneg id
    | .unvisited => exact hset.elim
    | .visited => exact hset.elim

theorem C1_labels_complete_witness :
    ValidInput [[(0 : ℚ)], [1], [10]] [1] 2 ∧
      ∃ labels,
        compute_cluster_labels [[(0 : ℚ)], [1], [10]] [1] 2 = .ok labels ∧
          labels.length = [[(0 : ℚ)], [1], [10]].length ∧
          ∀ x ∈ labels, 0 ≤ x ∨ x = NOISE :=
  ⟨by decide, C1_labels_complete [[(0 : ℚ)], [1], [10]] [1] 2 (by decide)⟩

/-! ## Claim C2 -/

/-- C2: the clustering call fails, with the single error kind
`InvalidInput`, exactly when some tolerance component is negative, the
points have inconsistent dimensionality, or MinNeighbors is non-positive;
the index build detects the tolerance and dimension errors; and once the
input validates, the clustering pass returns a result (it cannot fail). -/
theorem C2_invalid_input_iff (dataset : List (List ℚ)) (tolerance : List ℚ)
    (minNeighbors : ℤ) :
    (compute_cluster_labels dataset tolerance minNeighbors =
        .error .invalidInput ↔ ¬ ValidInput dataset tolerance minNeighbors) ∧
      ((∃ labels, compute_cluster_labels dataset tolerance minNeighbors =
          .ok labels) ↔ ValidInput dataset tolerance minNeighbors) ∧
      (buildIndex dataset tolerance = .error .invalidInput ↔
        ¬((∀ t ∈ tolerance, 0 ≤ t) ∧
          (∀ p ∈ dataset, p.length = tolerance.length))) := by
  refine ⟨⟨?_, ?_⟩, ⟨?_, ?_⟩, buildIndex_error_iff dataset tolerance⟩
  · intro herr hval
    obtain ⟨_, hcomp⟩ := compute_cluster_labels_valid _ _ _ hval
    rw [hcomp] at herr
    cases herr
  · exact compute_cluster_labels_invalid dataset tolerance minNeighbors
  · intro ⟨labels, hok⟩
    by_contra hval
    rw [compute_cluster_labels_invalid _ _ _ hval] at hok
    cases hok
  · intro hval
    obtain ⟨_, hcomp⟩ := compute_cluster_labels_valid _ _ _ hval
    exact ⟨_, hcomp⟩

/-! ## Claim C6 -/

/-- C6: `compute_cluster_labels` is deterministic — two runs on equal
datasets, tolerance vectors and MinNeighbors produce identical label
arrays (traversal order is pinned to dataset order in the labeler). -/
theorem C6_deterministic (ds1 ds2 : List (List ℚ)) (tol1 tol2 : List ℚ)
    (m1 m2 : ℤ) (hds : ds1 = ds2) (htol : tol1 = tol2) (hm : m1 = m2) :
    compute_cluster_labels ds1 tol1 m1 = compute_cluster_labels ds2 tol2 m2 := by
  subst hds
  subst htol
  subst hm
  rfl

theorem C6_deterministic_witness :
    compute_cluster_labels [[(0 : ℚ)], [1]] [1] 2 =
      compute_cluster_labels [[(0 : ℚ)], [1]] [1] 2 :=
  C6_deterministic [[(0 : ℚ)], [1]] [[(0 : ℚ)], [1]] [1] [1] 2 2 rfl rfl rfl

/-! ## Claim C4 -/

theorem withinBox_iff (tol : List ℚ) :
    ∀ a b : List ℚ, a.length = tol.length → b.length = tol.length →
      (withinBox tol a b = true ↔
        ∀ i, i < tol.length → |b.getD i 0 - a.getD i 0| ≤ tol.getD i 0) := by
  induction tol with
  | nil =>
    intro a b ha hb
    simp only [List.length_nil, List.length_eq_zero] at ha hb
    subst ha
    subst hb
    simp [withinBox]
  | cons t ts ih =>
    intro a b ha hb
    match a, b with
    | [], _ => simp at ha
    | _ :: _, [] => simp at hb
    | x :: xs, y :: ys =>
      simp only [withinBox, Bool.and_eq_true, decide_eq_true_eq]
      have ha' : xs.length = ts.length := by simpa using ha
      have hb' : ys.length = ts.length := by simpa using hb
      rw [box1_iff, ih xs ys ha' hb']
      constructor
      · intro ⟨h1, h2⟩ i hi
        cases i with
        | zero => simpa using h1
        | succ n =>
          simpa [List.getD_cons_succ] using h2 n (by simpa using hi)
      · intro hall
        constructor
        · simpa using hall 0 (by simp)
        · intro n hn
          simpa [List.getD_cons_succ] using hall (n + 1) (by simpa using hn)

theorem withinBox_refl (tol : List ℚ) :
    ∀ a : List ℚ, a.length = tol.length → (∀ t ∈ tol, 0 ≤ t) →
      withinBox tol a a = true := by
  induction tol with
  | nil =>
    intro a ha _
    simp only [List.length_nil, List.length_eq_zero] at ha
    subst ha
    rfl
  | cons t ts ih =>
    intro a ha htol
    match a with
    | [] => simp at ha
    | x :: xs =>
      have ht : 0 ≤ t := htol t (List.mem_cons_self t ts)
      simp only [withinBox, Bool.and_eq_true, decide_eq_true_eq]
      refine ⟨⟨?_, ?_⟩, ih xs (by simpa using ha)
        (fun u hu => htol u (List.mem_cons_of_mem t hu))⟩
      · linarith
      · linarith

/-- C4: for a valid index, `query p` returns exactly the indices `q` with
`|dataset[q][i] − dataset[p][i]| ≤ tolerance[i]` in every dimension `i` (an
axis-aligned box predicate), and the result always contains `p` itself. -/
theorem C4_query_correct (dataset : List (List ℚ)) (tolerance : List ℚ)
    (p : ℕ) (htol : ∀ t ∈ tolerance, 0 ≤ t)
    (hdim : ∀ pt ∈ dataset, pt.length = tolerance.length)
    (hp : p < dataset.length) :
    (∀ q, q ∈ query ⟨dataset, tolerance⟩ p ↔
      q < dataset.length ∧ ∀ i, i < tolerance.length →
        |(dataset.getD q []).getD i 0 - (dataset.getD p []).getD i 0| ≤
          tolerance.getD i 0) ∧
      p ∈ query ⟨dataset, tolerance⟩ p := by
  have hlen : ∀ r : ℕ, r < dataset.length →
      (dataset.getD r []).length = tolerance.length := by
    intro r hr
    rw [List.getD_eq_getElem _ _ hr]
    exact hdim _ (List.getElem_mem hr)
  constructor
  · intro q
    unfold query
    rw [List.mem_filter, List.mem_range]
    constructor
    · intro ⟨hq, hbox⟩
      exact ⟨hq, (withinBox_iff tolerance _ _ (hlen p hp) (hlen q hq)).mp hbox⟩
    · intro ⟨hq, hbox⟩
      exact ⟨hq, (withinBox_iff tolerance _ _ (hlen p hp) (hlen q hq)).mpr hbox⟩
  · unfold query
    rw [List.mem_filter, List.mem_range]
    exact ⟨hp, withinBox_refl tolerance _ (hlen p hp) htol⟩

theorem C4_query_correct_witness :
    (∀ t ∈ [(1 : ℚ)], 0 ≤ t) ∧ (∀ pt ∈ [[(0 : ℚ)], [1], [10]], pt.length = [(1 : ℚ)].length) ∧
      0 < [[(0 : ℚ)], [1], [10]].length ∧
      ((∀ q, q ∈ query ⟨[[(0 : ℚ)], [1], [10]], [1]⟩ 0 ↔
        q < [[(0 : ℚ)], [1], [10]].length ∧ ∀ i, i < [(1 : ℚ)].length →
          |([[(0 : ℚ)], [1], [10]].getD q []).getD i 0 -
              ([[(0 : ℚ)], [1], [10]].getD 0 []).getD i 0| ≤
            [(1 : ℚ)].getD i 0) ∧
        0 ∈ query ⟨[[(0 : ℚ)], [1], [10]], [1]⟩ 0) :=
  ⟨by decide, by decide, by decide,
    C4_query_correct [[(0 : ℚ)], [1], [10]] [1] 0 (by decide) (by decide) (by decide)⟩

/-! ## Claim C3 -/

theorem length_le_one_of_all_eq {l : List ℕ} (hn : l.Nodup) (a : ℕ)
    (h : ∀ x ∈ l, x = a) : l.length ≤ 1 := by
  match l with
  | [] => simp
  | [x] => simp
  | x :: y :: rest =>
    have hx := h x (List.mem_cons_self x (y :: rest))
    have hy := h y (List.mem_cons_of_mem x (List.mem_cons_self y rest))
    rw [List.nodup_cons] at hn
    exact absurd (by rw [hx, ← hy]; exact List.mem_cons_self y rest) hn.1

/-- Under pairwise isolation, the neighborhood of an in-range point contains
at most the point itself. -/
theorem query_isolated (dataset : List (List ℚ)) (tolerance : List ℚ)
    (hiso : ∀ i, i < dataset.length → ∀ j, j < dataset.length → i ≠ j →
      withinBox tolerance (dataset.getD i []) (dataset.getD j []) = false)
    (p : ℕ) (hp : p < dataset.length) :
    (query ⟨dataset, tolerance⟩ p).length ≤ 1 := by
  apply length_le_one_of_all_eq (List.Nodup.filter _ (List.nodup_range _)) p
  intro x hx
  rw [List.mem_filter, List.mem_range] at hx
  obtain ⟨hxlen, hbox⟩ := hx
  by_contra hne
  rw [hiso p hp x hxlen (fun he => hne he.symm)] at hbox
  cases hbox

/-- The states reachable in the isolated scenario: only `Unvisited` and
`Noise` ever occur. -/
def NoMembers (st : List PState) : Prop :=
  ∀ i, st.getD i .unvisited = .unvisited ∨ st.getD i .unvisited = .noise

theorem processPoint_noMembers (idx : NbrIndex) (minN : ℕ)
    (acc : List PState × ℕ) (p : ℕ) (hq : (query idx p).length < minN)
    (h : NoMembers acc.1) : NoMembers (processPoint idx minN acc p).1 := by
  unfold processPoint
  dsimp only
  rw [if_pos hq]
  split
  · exact h
  · intro i
    rw [getD_set]
    split
    · right; rfl
    · exact h i

theorem foldl_noMembers (idx : NbrIndex) (minN : ℕ) (ps : List ℕ) :
    ∀ acc : List PState × ℕ, (∀ p ∈ ps, (query idx p).length < minN) →
      NoMembers acc.1 →
      NoMembers ((ps.foldl (processPoint idx minN) acc).1) := by
  induction ps with
  | nil =>
    intro acc _ h
    exact h
  | cons p rest ih =>
    intro acc hq h
    simp only [List.foldl_cons]
    exact ih _ (fun r hr => hq r (List.mem_cons_of_mem p hr))
      (processPoint_noMembers idx minN acc p (hq p (List.mem_cons_self p rest)) h)

/-- C3: the empty dataset yields an empty label array rather than an error;
and when all points are pairwise farther apart than the tolerance on some
axis and MinNeighbors ≥ 2, every point is labeled NOISE rather than
erroring. -/
theorem C3_degenerate_inputs (dataset : List (List ℚ)) (tolerance : List ℚ)
    (minNeighbors : ℤ) (htol : ∀ t ∈ tolerance, 0 ≤ t)
    (hdim : ∀ p ∈ dataset, p.length = tolerance.length)
    (hmin : 2 ≤ minNeighbors)
    (hiso : ∀ i, i < dataset.length → ∀ j, j < dataset.length → i ≠ j →
      withinBox tolerance (dataset.getD i []) (dataset.getD j []) = false) :
    compute_cluster_labels [] tolerance minNeighbors = .ok [] ∧
      ∃ labels,
        compute_cluster_labels dataset tolerance minNeighbors = .ok labels ∧
          labels.length = dataset.length ∧ ∀ x ∈ labels, x = NOISE := by
  have hvalidE : ValidInput [] tolerance minNeighbors := by
    refine ⟨htol, ?_, by omega⟩
    intro p hp
    cases hp
  constructor
  · obtain ⟨_, hcomp⟩ := compute_cluster_labels_valid [] tolerance minNeighbors hvalidE
    rw [hcomp]
    rfl
  · obtain ⟨_, hcomp⟩ := compute_cluster_labels_valid dataset tolerance
      minNeighbors ⟨htol, hdim, by omega⟩
    refine ⟨_, hcomp, ?_, ?_⟩
    · rw [List.length_map, dbscanStates_length]
    · intro x hx
      obtain ⟨s, hs, hlab⟩ := List.mem_map.mp hx
      obtain ⟨n, hn, hsn⟩ := List.getElem_of_mem hs
      have hnm : NoMembers (dbscanStates ⟨dataset, tolerance⟩ minNeighbors.toNat).1 := by
        apply foldl_noMembers
        · intro p hp
          have h1 := query_isolated dataset tolerance hiso p (List.mem_range.mp hp)
          omega
        · intro i
          rw [getD_replicate_unvisited]
          split
          · left; rfl
          · left; rfl
      have hset := dbscanStates_settled ⟨dataset, tolerance⟩ minNeighbors.toNat n
        (by rw [← dbscanStates_length ⟨dataset, tolerance⟩ minNeighbors.toNat]; exact hn)
      have hcase := hnm n
      rw [List.getD_eq_getElem _ _ hn, hsn] at hset hcase
      subst hlab
      rcases hcase with hc | hc
      · rw [hc] at hset
        exact hset.elim
      · rw [hc]
        rfl

theorem C3_degenerate_inputs_witness :
    (∀ t ∈ [(1 : ℚ)], 0 ≤ t) ∧
      (∀ p ∈ [[(0 : ℚ)], [10]], p.length = [(1 : ℚ)].length) ∧
      (2 : ℤ) ≤ 2 ∧
      (compute_cluster_labels [] [(1 : ℚ)] 2 = .ok [] ∧
        ∃ labels,
          compute_cluster_labels [[(0 : ℚ)], [10]] [1] 2 = .ok labels ∧
            labels.length = [[(0 : ℚ)], [10]].length ∧
            ∀ x ∈ labels, x = NOISE) :=
  ⟨by decide, by decide, by decide,
    C3_degenerate_inputs [[(0 : ℚ)], [10]] [1] 2 (by decide) (by decide)
      (by decide) (by with_unfolding_all decide)⟩

/-! ## Claim C5 -/

/-- C5: in every returned label array the set of distinct non-NOISE ids is
exactly the contiguous range `[0, K)` for `K` the number of discovered
clusters: every non-NOISE entry lies in `[0, K)` and every id in `[0, K)`
occurs in the array. -/
theorem C5_cluster_ids_dense (dataset : List (List ℚ)) (tolerance : List ℚ)
    (minNeighbors : ℤ) (h : ValidInput dataset tolerance minNeighbors) :
    ∃ labels K,
      compute_cluster_labels dataset tolerance minNeighbors = .ok labels ∧
        (∀ x ∈ labels, x = NOISE ∨ (0 ≤ x ∧ x < K)) ∧
        (∀ j : ℤ, 0 ≤ j → j < K → j ∈ labels) := by
  obtain ⟨_, hcomp⟩ := compute_cluster_labels_valid dataset tolerance minNeighbors h
  have hinv := dbscanStates_inv ⟨dataset, tolerance⟩ minNeighbors.toNat
  refine ⟨_, ((dbscanStates ⟨dataset, tolerance⟩ minNeighbors.toNat).2 : ℤ),
    hcomp, ?_, ?_⟩
  · intro x hx
    obtain ⟨s, hs, hlab⟩ := List.mem_map.mp hx
    obtain ⟨n, hn, hsn⟩ := List.getElem_of_mem hs
    have hset := dbscanStates_settled ⟨dataset, tolerance⟩ minNeighbors.toNat n
      (by rw [← dbscanStates_length ⟨dataset, tolerance⟩ minNeighbors.toNat]; exact hn)
    have hbound := hinv.bound n
    rw [List.getD_eq_getElem _ _ hn, hsn] at hset hbound
    subst hlab
    match s with
    | .noise => left; rfl
    | .member id =>
      right
      constructor
      · show (0 : ℤ) ≤ (id : ℤ)
        exact Int.natCast_nonneg id
      · show (id : ℤ) <
          ((dbscanStates ⟨dataset, tolerance⟩ minNeighbors.toNat).2 : ℤ)
        exact_mod_cast hbound id rfl
    | .unvisited => exact hset.elim
    | .visited => exact hset.elim
  · intro j hj0 hjK
    obtain ⟨id, hid⟩ := Int.eq_ofNat_of_zero_le hj0
    subst hid
    have hidK : id < (dbscanStates ⟨dataset, tolerance⟩ minNeighbors.toNat).2 := by
      exact_mod_cast hjK
    obtain ⟨i, hi⟩ := hinv.witness id hidK
    have hilen : i < (dbscanStates ⟨dataset, tolerance⟩ minNeighbors.toNat).1.length := by
      by_contra hge
      rw [List.getD_eq_getElem?_getD,
        List.getElem?_eq_none (Nat.le_of_not_lt hge)] at hi
      cases hi
    rw [List.getD_eq_getElem _ _ hilen] at hi
    have : labelOf (dbscanStates ⟨dataset, tolerance⟩ minNeighbors.toNat).1[i] =
        (id : ℤ) := by
      rw [hi]
      rfl
    rw [← this]
    exact List.mem_map_of_mem labelOf (List.getElem_mem hilen)

theorem C5_cluster_ids_dense_witness :
    ValidInput [[(0 : ℚ)], [1], [10]] [1] 2 ∧
      ∃ labels K,
        compute_cluster_labels [[(0 : ℚ)], [1], [10]] [1] 2 = .ok labels ∧
          (∀ x ∈ labels, x = NOISE ∨ (0 ≤ x ∧ x < K)) ∧
          (∀ j : ℤ, 0 ≤ j → j < K → j ∈ labels) :=
  ⟨by decide, C5_cluster_ids_dense [[(0 : ℚ)], [1], [10]] [1] 2 (by decide)⟩

/-! ## Claim C8: `cluster_points_around` from `test_dbscan_clustering.py`

Translated from the source. The test always calls it with 3-component
points, and the function body reads exactly the components 0, 1 and 2, so
the embedding uses triples. Python's float division by `float(count-1)`
raises `ZeroDivisionError` when `count = 1`; the embedding returns `none`
there. -/

def cluster_points_around (central_point span : ℚ × ℚ × ℚ) (count : ℤ) :
    Option (List (ℚ × ℚ × ℚ)) :=
  if count - 1 = 0 then
    none
  else
    some ((List.range count.toNat).flatMap (fun (i : ℕ) =>
      (List.range count.toNat).flatMap (fun (j : ℕ) =>
        (List.range count.toNat).map (fun (k : ℕ) =>
          (central_point.1 - 0.5 * span.1 +
              (i : ℚ) * (span.1 / ((count - 1 : ℤ) : ℚ)),
            central_point.2.1 - 0.5 * span.2.1 +
              (j : ℚ) * (span.2.1 / ((count - 1 : ℤ) : ℚ)),
            central_point.2.2 - 0.5 * span.2.2 +
              (k : ℚ) * (span.2.2 / ((count - 1 : ℤ) : ℚ)))))))

theorem length_flatMap_const {α β : Type} (l : List α) (f : α → List β)
    (m : ℕ) (h : ∀ a ∈ l, (f a).length = m) :
    (l.flatMap f).length = l.length * m := by
  induction l with
  | nil => simp
  | cons x xs ih =>
    rw [List.flatMap_cons, List.length_append, h x (List.mem_cons_self x xs),
      ih (fun a ha => h a (List.mem_cons_of_mem x ha)), List.length_cons]
    ring

theorem length_triple_grid {β : Type} (n : ℕ) (g : ℕ → ℕ → ℕ → β) :
    ((List.range n).flatMap (fun i => (List.range n).flatMap (fun j =>
      (List.range n).map (fun k => g i j k)))).length = n ^ 3 := by
  rw [length_flatMap_const _ _ (n * n)]
  · rw [List.length_range]
    ring
  · intro a _
    rw [length_flatMap_const _ _ n]
    · rw [List.length_range]
    · intro b _
      rw [List.length_map, List.length_range]

/-- One grid coordinate stays within the half-span interval around the
center. -/
theorem gridCoord_bounds (c s : ℚ) (n : ℤ) (hs : 0 ≤ s) (hn : 2 ≤ n)
    (i : ℕ) (hi : i < n.toNat) :
    c - s / 2 ≤ c - 0.5 * s + (i : ℚ) * (s / ((n - 1 : ℤ) : ℚ)) ∧
      c - 0.5 * s + (i : ℚ) * (s / ((n - 1 : ℤ) : ℚ)) ≤ c + s / 2 := by
  have hn1 : (0 : ℚ) < ((n - 1 : ℤ) : ℚ) := by
    have h2 : (0 : ℤ) < n - 1 := by omega
    exact_mod_cast h2
  have hdiv : 0 ≤ s / ((n - 1 : ℤ) : ℚ) := div_nonneg hs (le_of_lt hn1)
  have hi' : (i : ℚ) ≤ ((n - 1 : ℤ) : ℚ) := by
    have hz : (i : ℤ) ≤ n - 1 := by omega
    exact_mod_cast hz
  have hnz : ((n - 1 : ℤ) : ℚ) ≠ 0 := ne_of_gt hn1
  have hcancel : ((n - 1 : ℤ) : ℚ) * (s / ((n - 1 : ℤ) : ℚ)) = s := by
    rw [← mul_div_assoc, mul_comm]
    exact mul_div_cancel_right₀ s hnz
  constructor
  · have h0 : 0 ≤ (i : ℚ) * (s / ((n - 1 : ℤ) : ℚ)) :=
      mul_nonneg (Nat.cast_nonneg i) hdiv
    have : (0.5 : ℚ) * s = s / 2 := by ring
    linarith
  · have h2 : (i : ℚ) * (s / ((n - 1 : ℤ) : ℚ)) ≤
        ((n - 1 : ℤ) : ℚ) * (s / ((n - 1 : ℤ) : ℚ)) :=
      mul_le_mul_of_nonneg_right hi' hdiv
    rw [hcancel] at h2
    have : (0.5 : ℚ) * s = s / 2 := by ring
    linarith

/-- C8: for non-negative spans and `count ≥ 2`, `cluster_points_around`
returns exactly `count³` points, each coordinate lying in the closed
interval `[center − span/2, center + span/2]`; for `count = 1` the grid
step computation divides by zero and the call fails. -/
theorem C8_cluster_points_around (central_point span : ℚ × ℚ × ℚ)
    (count : ℤ) (hs1 : 0 ≤ span.1) (hs2 : 0 ≤ span.2.1)
    (hs3 : 0 ≤ span.2.2) (hc : 2 ≤ count) :
    cluster_points_around central_point span 1 = none ∧
      ∃ pts, cluster_points_around central_point span count = some pts ∧
        pts.length = count.toNat ^ 3 ∧
        ∀ p ∈ pts,
          (central_point.1 - span.1 / 2 ≤ p.1 ∧
            p.1 ≤ central_point.1 + span.1 / 2) ∧
          (central_point.2.1 - span.2.1 / 2 ≤ p.2.1 ∧
            p.2.1 ≤ central_point.2.1 + span.2.1 / 2) ∧
          (central_point.2.2 - span.2.2 / 2 ≤ p.2.2 ∧
            p.2.2 ≤ central_point.2.2 + span.2.2 / 2) := by
  constructor
  · rw [cluster_points_around]
    norm_num
  · have hne : ¬(count - 1 = 0) := by omega
    rw [cluster_points_around, if_neg hne]
    refine ⟨_, rfl, ?_, ?_⟩
    · exact length_triple_grid count.toNat _
    · intro p hp
      rw [List.mem_flatMap] at hp
      obtain ⟨i, hi, hp⟩ := hp
      rw [List.mem_flatMap] at hp
      obtain ⟨j, hj, hp⟩ := hp
      rw [List.mem_map] at hp
      obtain ⟨k, hk, hp⟩ := hp
      rw [List.mem_range] at hi hj hk
      subst hp
      exact ⟨gridCoord_bounds central_point.1 span.1 count hs1 hc i hi,
        gridCoord_bounds central_point.2.1 span.2.1 count hs2 hc j hj,
        gridCoord_bounds central_point.2.2 span.2.2 count hs3 hc k hk⟩

theorem C8_cluster_points_around_witness :
    (0 : ℚ) ≤ 1 ∧ (2 : ℤ) ≤ 2 ∧
      (cluster_points_around ((0 : ℚ), (0 : ℚ), (0 : ℚ)) (1, 1, 1) 1 = none ∧
        ∃ pts,
          cluster_points_around ((0 : ℚ), (0 : ℚ), (0 : ℚ)) (1, 1, 1) 2 =
              some pts ∧
            pts.length = (2 : ℤ).toNat ^ 3 ∧
            ∀ p ∈ pts,
              ((0 : ℚ) - 1 / 2 ≤ p.1 ∧ p.1 ≤ (0 : ℚ) + 1 / 2) ∧
                ((0 : ℚ) - 1 / 2 ≤ p.2.1 ∧ p.2.1 ≤ (0 : ℚ) + 1 / 2) ∧
                ((0 : ℚ) - 1 / 2 ≤ p.2.2 ∧ p.2.2 ≤ (0 : ℚ) + 1 / 2)) :=
  ⟨by decide, by decide,
    C8_cluster_points_around ((0 : ℚ), (0 : ℚ), (0 : ℚ)) (1, 1, 1) 2
      (by decide) (by decide) (by decide) (by decide)⟩

/-! ## Claim C9: `compute_trajectory_time_bounds`

Translated from `example_movie_rendering_with_highlight.py`. A trajectory is
a list of points carrying timestamps (embedded as integers); the function
folds over the trajectories, skipping empty ones, tracking the minimum first
timestamp and the maximum last timestamp, both starting as `None`. On the
`start_time ≠ None` path the source computes `max(end_time, ...)`; there
`end_time` is never `None` (the two are always set together), which the
embedding renders with `Option.getD`. -/

structure TrajPoint where
  timestamp : ℤ
deriving DecidableEq, Repr

def ctbGo : Option ℤ → Option ℤ → List (List TrajPoint) →
    Option ℤ × Option ℤ
  | s, e, [] => (s, e)
  | s, e, traj :: rest =>
    match traj.head?, traj.getLast? with
    | some h, some l =>
      match s with
      | none => ctbGo (some h.timestamp) (some l.timestamp) rest
      | some sv =>
        ctbGo (some (min sv h.timestamp))
          (some (max (e.getD l.timestamp) l.timestamp)) rest
    | _, _ => ctbGo s e rest

def compute_trajectory_time_bounds (trajectories : List (List TrajPoint)) :
    Option ℤ × Option ℤ :=
  ctbGo none none trajectories

/-- The first timestamps of the non-empty trajectories, in order. -/
def firstTimes (trajectories : List (List TrajPoint)) : List ℤ :=
  trajectories.filterMap (fun t => t.head?.map (fun p => p.timestamp))

/-- The last timestamps of the non-empty trajectories, in order. -/
def lastTimes (trajectories : List (List TrajPoint)) : List ℤ :=
  trajectories.filterMap (fun t => t.getLast?.map (fun p => p.timestamp))

theorem ctbGo_some (trajectories : List (List TrajPoint)) :
    ∀ sv ev : ℤ, ctbGo (some sv) (some ev) trajectories =
      (some ((firstTimes trajectories).foldl min sv),
        some ((lastTimes trajectories).foldl max ev)) := by
  induction trajectories with
  | nil =>
    intro sv ev
    rfl
  | cons t rest ih =>
    intro sv ev
    match ht : t.head?, hl : t.getLast? with
    | some h, some l =>
      rw [ctbGo]
      simp only [ht, hl, Option.getD_some]
      rw [ih (min sv h.timestamp) (max ev l.timestamp)]
      unfold firstTimes lastTimes
      simp [List.filterMap_cons, ht, hl]
    | some h, none =>
      rw [List.getLast?_eq_none_iff] at hl
      subst hl
      cases ht
    | none, some l =>
      rw [List.head?_eq_none_iff] at ht
      subst ht
      cases hl
    | none, none =>
      rw [ctbGo]
      simp only [ht, hl]
      rw [ih sv ev]
      unfold firstTimes lastTimes
      simp [List.filterMap_cons, ht, hl]

/-- C9: `compute_trajectory_time_bounds` returns the pair (minimum of the
first timestamps of the non-empty trajectories, maximum of their last
timestamps), skipping empty trajectories, and `(none, none)` when the list
is empty or every trajectory is empty. -/
theorem C9_time_bounds (trajectories : List (List TrajPoint)) :
    compute_trajectory_time_bounds trajectories =
      ((firstTimes trajectories).min?, (lastTimes trajectories).max?) ∧
      ((∀ t ∈ trajectories, t = []) →
        compute_trajectory_time_bounds trajectories = (none, none)) := by
  have hmain : ∀ ts : List (List TrajPoint),
      compute_trajectory_time_bounds ts =
        ((firstTimes ts).min?, (lastTimes ts).max?) := by
    intro ts
    induction ts with
    | nil => rfl
    | cons t rest ih =>
      unfold compute_trajectory_time_bounds at *
      match ht : t.head?, hl : t.getLast? with
      | some h, some l =>
        rw [ctbGo]
        simp only [ht, hl]
        rw [ctbGo_some]
        unfold firstTimes lastTimes
        simp only [List.filterMap_cons, ht, hl, Option.map_some]
        rfl
      | some h, none =>
        rw [List.getLast?_eq_none_iff] at hl
        subst hl
        cases ht
      | none, some l =>
        rw [List.head?_eq_none_iff] at ht
        subst ht
        cases hl
      | none, none =>
        rw [ctbGo]
        simp only [ht, hl]
        rw [ih]
        unfold firstTimes lastTimes
        simp [List.filterMap_cons, ht, hl]
  refine ⟨hmain trajectories, ?_⟩
  intro hall
  rw [hmain trajectories]
  have h1 : firstTimes trajectories = [] := by
    unfold firstTimes
    rw [List.filterMap_eq_nil_iff]
    intro t ht
    rw [hall t ht]
    rfl
  have h2 : lastTimes trajectories = [] := by
    unfold lastTimes
    rw [List.filterMap_eq_nil_iff]
    intro t ht
    rw [hall t ht]
    rfl
  rw [h1, h2]
  rfl

/-! ## Claim C10: the terrestrial domain registry

Translated from `tracktable/domain/terrestrial.py`: the module builds a
dictionary `domain_classes` mapping the ten canonical class names to the ten
re-exported classes, then assigns that same dictionary as the
`domain_classes` attribute of each of the ten classes. Classes are embedded
as an enumeration; the dictionary as an association list in source order;
the attribute assignments as a fold over the source's loop list updating a
per-class attribute map. -/

inductive TerrestrialClass where
  | basePoint : TerrestrialClass
  | trajectoryPoint : TerrestrialClass
  | trajectory : TerrestrialClass
  | basePointReader : TerrestrialClass
  | trajectoryPointReader : TerrestrialClass
  | trajectoryReader : TerrestrialClass
  | basePointWriter : TerrestrialClass
  | trajectoryPointWriter : TerrestrialClass
  | trajectoryWriter : TerrestrialClass
  | boundingBox : TerrestrialClass
deriving DecidableEq, Repr

/-- The dictionary literal of `terrestrial.py` (lines 39-50), in source
order. -/
def domain_classes : List (String × TerrestrialClass) :=
  [("BasePoint", .basePoint),
   ("TrajectoryPoint", .trajectoryPoint),
   ("BasePointReader", .basePointReader),
   ("TrajectoryPointReader", .trajectoryPointReader),
   ("TrajectoryReader", .trajectoryReader),
   ("Trajectory", .trajectory),
   ("BoundingBox", .boundingBox),
   ("BasePointWriter", .basePointWriter),
   ("TrajectoryPointWriter", .trajectoryPointWriter),
   ("TrajectoryWriter", .trajectoryWriter)]

/-- The loop list of `terrestrial.py` (lines 52-62), in source order. -/
def terrestrialLoopOrder : List TerrestrialClass :=
  [.basePoint, .trajectoryPoint, .trajectory, .basePointReader,
   .trajectoryPointReader, .trajectoryReader, .basePointWriter,
   .trajectoryPointWriter, .trajectoryWriter, .boundingBox]

/-- One iteration of the loop: set the `domain_classes` attribute of one
class. -/
def assignDomainClasses
    (attrs : TerrestrialClass → Option (List (String × TerrestrialClass)))
    (c : TerrestrialClass) :
    TerrestrialClass → Option (List (String × TerrestrialClass)) :=
  fun c' => if c' = c then some domain_classes else attrs c'

/-- The attribute map after the module finishes initializing. -/
def terrestrialAttrs :
    TerrestrialClass → Option (List (String × TerrestrialClass)) :=
  terrestrialLoopOrder.foldl assignDomainClasses (fun _ => none)

/-- The canonical name of each exported class, as keyed in the dictionary. -/
def canonicalName : TerrestrialClass → String
  | .basePoint => "BasePoint"
  | .trajectoryPoint => "TrajectoryPoint"
  | .trajectory => "Trajectory"
  | .basePointReader => "BasePointReader"
  | .trajectoryPointReader => "TrajectoryPointReader"
  | .trajectoryReader => "TrajectoryReader"
  | .basePointWriter => "BasePointWriter"
  | .trajectoryPointWriter => "TrajectoryPointWriter"
  | .trajectoryWriter => "TrajectoryWriter"
  | .boundingBox => "BoundingBox"

/-- C10: after module initialization every one of the ten exported classes
carries a `domain_classes` attribute referring to the same ten-entry
dictionary, and that dictionary maps each canonical class name to its
class. -/
theorem C10_domain_classes :
    (∀ c : TerrestrialClass, terrestrialAttrs c = some domain_classes) ∧
      domain_classes.length = 10 ∧
      (∀ c : TerrestrialClass, (canonicalName c, c) ∈ domain_classes) := by
  refine ⟨?_, rfl, ?_⟩
  · intro c
    cases c <;> rfl
  · intro c
    cases c <;> decide

end Tracktable
